import Mathlib

set_option maxHeartbeats 1000000

/- Shallow embedding of ichimei/rush (src/main.rs), a minimal Unix-style
   interactive shell: whitespace tokenizer, command-line parser
   (`CmdLine::new`), builtin/command dispatch (`Cmd::exec`), the pipeline
   orchestration algorithm (`CmdLine::exec`, modelled as the trace of
   process-level events it performs, tagged by the process that performs
   them), and the read-eval session loop (`Rush::run`, modelled one line
   at a time).  Strings are modelled as lists of characters; operating
   system side effects are modelled as explicit event/effect lists. -/

abbrev Str : Type := List Char

/-- Tokenization, Rust `line.split_whitespace()`: split on runs of
whitespace, producing no empty tokens.  `cur` accumulates the current
token in reverse.  (Rust's `char::is_whitespace` is Unicode-aware;
`Char.isWhitespace` covers the ASCII whitespace characters, which
coincides on all inputs relevant here.) -/
def splitWsAux : Str → Str → List Str
  | [], cur => if cur = [] then [] else [cur.reverse]
  | c :: cs, cur =>
    if c.isWhitespace then
      if cur = [] then splitWsAux cs [] else cur.reverse :: splitWsAux cs []
    else splitWsAux cs (c :: cur)

def splitWs (s : Str) : List Str := splitWsAux s []

/-- Leading-run test: `sublistAt t s` holds when `t` is an initial
segment of `s` (helper for the substring search below). -/
def sublistAt : Str → Str → Bool
  | [], _ => true
  | _ :: _, [] => false
  | a :: as, b :: bs => a == b && sublistAt as bs

/-- Substring search, Rust `s.find(t).is_some()`: `t` occurs as a
contiguous run inside `s`.  The parser uses it as
`"&|<>".find(token)` to test whether a would-be filename is made of
operator characters. -/
def substrOf (t : Str) : Str → Bool
  | [] => t == []
  | c :: rest => sublistAt t (c :: rest) || substrOf t rest

/-- The operator-character string `"&|<>"` of `CmdLine::new`. -/
def opStr : Str := ['&', '|', '<', '>']

/-- One pipeline stage, Rust `struct Cmd { cmd: Vec<String> }`: the
program name followed by its arguments. -/
structure Cmd where
  cmd : List Str
deriving DecidableEq

/-- Rust `Cmd::prog`, `&self.cmd[0]`.  The parser only ever creates a
`Cmd` and immediately pushes a token into it, so `cmd` is non-empty at
every use site; `headD` stands for the (in-bounds) `cmd[0]` indexing. -/
def Cmd.prog (c : Cmd) : Str := c.cmd.headD []

/-- Rust `Cmd::is_builtin`: the fixed closed set of builtin names. -/
def Cmd.is_builtin (c : Cmd) : Bool :=
  c.prog == "cd".toList || c.prog == "exit".toList || c.prog == "history".toList
    || c.prog == "jobs".toList || c.prog == "kill".toList || c.prog == "pwd".toList

/-- Observable effects of running one command (`Cmd::exec`): console
output lines, directory changes, process exit, signal sends, the
non-blocking `waitpid` probes of the `jobs` builtin, and replacement of
the process image (`execvp`).  OS failure codes of `chdir`/`kill`/
`execvp` (which only add a `perror` line) are not modelled further; no
claim depends on them. -/
inductive BEff where
  | errLine (s : String)
  | outLine (s : String)
  | chdirTo (d : Str)
  | exitNow (code : Nat)
  | sigKill (pid : Int)
  | waitProbe (pid : Nat)
  | pwdOut
  | execImage (argv : List Str)
deriving DecidableEq

/-- Message of Rust `Cmd::prog_num`:
`eprintln!("{}: Expect {} arguments, found {}", ...)`. -/
def arityMsg (p : Str) (num found : Nat) : String :=
  String.mk p ++ ": Expect " ++ toString num ++ " arguments, found " ++ toString found

/-- Rust `Cmd::prog_num`: checks the argument count against `num`;
on mismatch it prints the arity diagnostic and answers `false`. -/
def Cmd.prog_num (c : Cmd) (num : Nat) : Bool × List BEff :=
  if c.cmd.length - 1 ≠ num then
    (false, [BEff.errLine (arityMsg c.prog num (c.cmd.length - 1))])
  else (true, [])

/-- Format of one `history` output line,
`println!("{:>5}  {}", hisno, cmd)`: index right-aligned in width 5,
two spaces, the recorded text. -/
def histFmt (n : Nat) (s : Str) : String :=
  String.mk (List.replicate (5 - (toString n).length) ' ') ++ toString n
    ++ "  " ++ String.mk s

/-- Output of the `history` builtin: the loop body of `Cmd::exec`'s
`"history"` arm, with `hisno` incremented before each print. -/
def histLines (hisno : Nat) : List Str → List BEff
  | [] => []
  | cmd :: rest => BEff.outLine (histFmt (hisno + 1) cmd) :: histLines (hisno + 1) rest

/-- Inner loop of the `jobs` builtin for one job: probe each pid with
`waitpid(pid, WNOHANG)` (outcome given by the oracle `probe`); on the
first probe answering 0 (still running) print the job's text once and
stop probing this job. -/
def probeJob (probe : Nat → Int) (text : Str) : List Nat → List BEff
  | [] => []
  | pid :: rest =>
    BEff.waitProbe pid ::
      (if probe pid = 0 then [BEff.outLine (String.mk text)] else probeJob probe text rest)

/-- Integer parse for the `kill` builtin, Rust `arg.parse::<pid_t>()`:
an optional sign followed by at least one decimal digit, value within
the `i32` range. -/
def digitsVal : Str → Option Nat
  | [] => none
  | l =>
    l.foldl
      (fun acc c =>
        match acc with
        | none => none
        | some v => if c.isDigit then some (v * 10 + (c.toNat - 48)) else none)
      (some 0)

def parse_i32 (s : Str) : Option Int :=
  match s with
  | '+' :: rest =>
    match digitsVal rest with
    | some v => if (v : Int) ≤ 2147483647 then some (v : Int) else none
    | none => none
  | '-' :: rest =>
    match digitsVal rest with
    | some v => if (v : Int) ≤ 2147483648 then some (-(v : Int)) else none
    | none => none
  | _ =>
    match digitsVal s with
    | some v => if (v : Int) ≤ 2147483647 then some (v : Int) else none
    | none => none

/-- Rust `Cmd::exec(history, jobs)`, as the list of effects it performs.
`probe` is the oracle giving the outcome of each `waitpid(_, WNOHANG)`
call made by the `jobs` arm.  The `_` arm replaces the process image
with `execvp`. -/
def Cmd.exec (c : Cmd) (probe : Nat → Int) (history : List Str)
    (jobs : List (List Nat × Str)) : List BEff :=
  if c.prog == "cd".toList then
    match c.prog_num 1 with
    | (true, _) => [BEff.chdirTo (c.cmd.getD 1 [])]
    | (false, e) => e
  else if c.prog == "history".toList then
    match c.prog_num 0 with
    | (true, _) => histLines 0 history
    | (false, e) => e
  else if c.prog == "jobs".toList then
    match c.prog_num 0 with
    | (true, _) => jobs.flatMap (fun j => probeJob probe j.2 j.1)
    | (false, e) => e
  else if c.prog == "exit".toList then
    match c.prog_num 0 with
    | (true, _) => [BEff.exitNow 0]
    | (false, e) => e
  else if c.prog == "kill".toList then
    match c.prog_num 1 with
    | (true, _) =>
      match parse_i32 (c.cmd.getD 1 []) with
      | some pid => [BEff.sigKill pid]
      | none => [BEff.errLine ("kill: " ++ String.mk (c.cmd.getD 1 []) ++ " isn't an integer")]
    | (false, e) => e
  else if c.prog == "pwd".toList then
    match c.prog_num 0 with
    | (true, _) => [BEff.pwdOut]
    | (false, e) => e
  else
    [BEff.execImage c.cmd]

/-- Parsed command line, Rust `struct CmdLine`. -/
structure CmdLine where
  cmds : List Cmd
  back : Bool
  filein : Option Str
  fileout : Option Str
deriving DecidableEq

/-- Mutable state of the parsing loop in `CmdLine::new`. -/
structure PSt where
  top : Bool
  cmds : List Cmd
  back : Bool
  filein : Option Str
  fileout : Option Str
  cmdno : Nat
deriving DecidableEq

/-- Result of parsing: `ok` models `Some(CmdLine)`, `perr` models the
`eprintln!` diagnostic followed by `return None`, and `oob` models a
Rust index-out-of-bounds panic (reachable only through the
`cmds[cmdno]` indexing; every `tokens[...]` access is guarded). -/
inductive PRes where
  | oob : PRes
  | perr (msg : String) : PRes
  | ok (cl : CmdLine) : PRes
deriving DecidableEq

/-- True exactly when parsing rejected the line with a diagnostic
(returned `None` in the source). -/
def PRes.isPerr : PRes → Bool
  | PRes.perr _ => true
  | _ => false

/-- Rust `cmds[cmdno].push(tokens[i])`: in-bounds update, or `none`
when `k` is out of bounds (an index panic in Rust). -/
def pushAt (cmds : List Cmd) (k : Nat) (t : Str) : Option (List Cmd) :=
  if h : k < cmds.length then
    some (cmds.set k ⟨(cmds[k]).cmd ++ [t]⟩)
  else none

/-- Body of the default (`_`) arm of the parser's match: when the
previous token was not `<`/`>`, push a fresh `Cmd` if at the top of a
stage, then append the token to `cmds[cmdno]`. -/
def pushTok (st : PSt) (t : Str) : Option PSt :=
  match pushAt (if st.top then st.cmds ++ [⟨[]⟩] else st.cmds) st.cmdno t with
  | none => none
  | some cmds2 => some { st with cmds := cmds2, top := if st.top then false else st.top }

/-- The `for i in 0 .. tokens.len()` loop of `CmdLine::new`.  `rem` is
the suffix `tokens.drop i`, used only as structural fuel; every token
access goes through `tokens` by index, exactly as the source does.
Branches, in source order: `&` must be last; `|` must not be first nor
follow `|`; `<` needs a following non-operator filename and no earlier
`|`; `>` needs a following non-operator filename and no `|` anywhere
later (the forward scan `for j in i+1..len`, modelled as membership in
`tokens.drop (i+1)`); any other token is appended to the current stage
unless the previous token was `<`/`>`. -/
def parseLoop (tokens : List Str) : List Str → Nat → PSt → PRes
  | [], _, st => PRes.ok ⟨st.cmds, st.back, st.filein, st.fileout⟩
  | _ :: rem, i, st =>
    match tokens[i]? with
    | none => PRes.oob
    | some tok =>
      if tok = ['&'] then
        if i ≠ tokens.length - 1 then
          PRes.perr "Parsing Error: & can appear only after the last command"
        else parseLoop tokens rem (i + 1) { st with back := true }
      else if tok = ['|'] then
        if i = 0 then
          PRes.perr "Parsing Error: | cannot appear as the first word in a command"
        else
          match tokens[i-1]? with
          | none => PRes.oob
          | some prev =>
            if prev = ['|'] then
              PRes.perr "Parsing Error: | cannot appear as the first word in a command"
            else parseLoop tokens rem (i + 1) { st with cmdno := st.cmdno + 1, top := true }
      else if tok = ['<'] then
        if i = tokens.length - 1 then
          PRes.perr "Parsing Error: No filename after <"
        else
          match tokens[i+1]? with
          | none => PRes.oob
          | some nxt =>
            if substrOf nxt opStr then
              PRes.perr "Parsing Error: Illegal filename after <"
            else if st.cmdno > 0 then
              PRes.perr "Parsing Error: < can appear only in the first command"
            else parseLoop tokens rem (i + 1) { st with filein := some nxt }
      else if tok = ['>'] then
        if i = tokens.length - 1 then
          PRes.perr "Parsing Error: No filename after >"
        else
          match tokens[i+1]? with
          | none => PRes.oob
          | some nxt =>
            if substrOf nxt opStr then
              PRes.perr "Parsing Error: Illegal filename after >"
            else if ['|'] ∈ tokens.drop (i + 1) then
              PRes.perr "Parsing Error: > can appear only in the last command"
            else parseLoop tokens rem (i + 1) { st with fileout := some nxt }
      else
        if i = 0 then
          match pushTok st tok with
          | none => PRes.oob
          | some st' => parseLoop tokens rem (i + 1) st'
        else
          match tokens[i-1]? with
          | none => PRes.oob
          | some prev =>
            if prev = ['<'] ∨ prev = ['>'] then parseLoop tokens rem (i + 1) st
            else
              match pushTok st tok with
              | none => PRes.oob
              | some st' => parseLoop tokens rem (i + 1) st'

/-- Rust `CmdLine::new(line)`: tokenize, run the parsing loop from the
initial state. -/
def CmdLine.new (line : Str) : PRes :=
  let tokens := splitWs line
  parseLoop tokens tokens 0 ⟨true, [], false, none, none, 0⟩

/-- Process performing an event: the shell itself or the forked child
for stage `s`. -/
inductive Proc where
  | parent : Proc
  | child (s : Nat) : Proc
deriving DecidableEq

/-- Process-level events of `CmdLine::exec`.  `mkpipe i` creates pipe
`i` with descriptors (read end `closeFd i false`, write end
`closeFd i true` when closed); `dupRead i`/`dupWrite i` are
`dup2(fd[i][0], 0)`/`dup2(fd[i][1], 1)`; `openIn`/`openOut` with
`dupStdin`/`dupStdout` model `CmdLine::dupin`/`dupout` (the close of
the freshly opened file descriptor and the `exit(1)` on open failure in
the child are elided; no claim depends on them); `runCmd s` marks
`cmds[s].exec(history, jobs)` running in the tagged process. -/
inductive Ev where
  | mkpipe (i : Nat)
  | forkStage (s : Nat)
  | closeFd (i : Nat) (w : Bool)
  | openIn (p : Str)
  | openOut (p : Str)
  | dupStdin
  | dupStdout
  | dupRead (i : Nat)
  | dupWrite (i : Nat)
  | runCmd (s : Nat)
  | exitP (code : Nat)
deriving DecidableEq

/-- Rust `CmdLine::dupin`, as the child-side event list. -/
def CmdLine.dupinEvs (cl : CmdLine) : List Ev :=
  match cl.filein with
  | some p => [Ev.openIn p, Ev.dupStdin]
  | none => []

/-- Rust `CmdLine::dupout`, as the child-side event list. -/
def CmdLine.dupoutEvs (cl : CmdLine) : List Ev :=
  match cl.fileout with
  | some p => [Ev.openOut p, Ev.dupStdout]
  | none => []

/-- Rust `CmdLine::exec(history, jobs)`: the full trace of events
(tagged with the process performing them, child events listed directly
after the fork that creates the child) and the list of collected child
process identifiers (abstracted as stage numbers, one per `fork`, in
fork order, exactly as the source pushes each `fork` result).
Structure mirrors the source: a lone builtin runs in the parent; a lone
external command gets one fork whose child applies both redirections;
with `n ≥ 2` stages the parent creates `n-1` pipes up front, then forks
stage 0 and closes `fd[0][1]`, forks each middle stage `i` and closes
`fd[i-1][0]` and `fd[i][1]`, forks the last stage and closes
`fd[n-2][0]`. -/
def CmdLine.exec (cl : CmdLine) : List (Proc × Ev) × List Nat :=
  let n := cl.cmds.length
  if n = 1 then
    if (cl.cmds.headD ⟨[]⟩).is_builtin then
      ([(Proc.parent, Ev.runCmd 0)], [])
    else
      ([(Proc.parent, Ev.forkStage 0)]
        ++ ((cl.dupinEvs ++ cl.dupoutEvs ++ [Ev.runCmd 0, Ev.exitP 0]).map
            (fun e => (Proc.child 0, e))),
       [0])
  else if n > 0 then
    (((List.range (n - 1)).map (fun i => (Proc.parent, Ev.mkpipe i)))
      ++ [(Proc.parent, Ev.forkStage 0)]
      ++ ((cl.dupinEvs ++ [Ev.dupWrite 0, Ev.runCmd 0, Ev.exitP 0]).map
          (fun e => (Proc.child 0, e)))
      ++ [(Proc.parent, Ev.closeFd 0 true)]
      ++ ((List.range' 1 (n - 2)).flatMap (fun i =>
            [(Proc.parent, Ev.forkStage i)]
              ++ ([Ev.dupRead (i - 1), Ev.dupWrite i, Ev.runCmd i, Ev.exitP 0].map
                  (fun e => (Proc.child i, e)))
              ++ [(Proc.parent, Ev.closeFd (i - 1) false),
                  (Proc.parent, Ev.closeFd i true)]))
      ++ [(Proc.parent, Ev.forkStage (n - 1))]
      ++ ((cl.dupoutEvs ++ [Ev.dupRead (n - 2), Ev.runCmd (n - 1), Ev.exitP 0]).map
          (fun e => (Proc.child (n - 1), e)))
      ++ [(Proc.parent, Ev.closeFd (n - 2) false)],
     List.range n)
  else ([], [])

/-- Session state of `Rush`: command history and the background job
table. -/
structure RushSt where
  history : List Str
  jobs : List (List Nat × Str)
deriving DecidableEq

/-- Recorded text of a background job, from `Rush::run`:
`line.replace("&", "").split_whitespace().collect::<Vec<_>>().join(" ")`.
Replacing every occurrence of the one-character pattern `"&"` by the
empty string deletes every `'&'` character. -/
def jobText (line : Str) : Str :=
  List.intercalate [' '] (splitWs (line.filter (fun c => c ≠ '&')))

/-- Trailing-newline strip of `Rush::run`:
`if line.as_bytes()[line.len()-1] as char == '\n' { line.pop(); }`. -/
def stripNl (raw : Str) : Str :=
  if raw.getLast? = some '\n' then raw.dropLast else raw

/-- One iteration of the `Rush::run` loop, for one raw line as returned
by `read_line` (trailing newline included when present).  `none` means
the session process terminates during this iteration: an empty read is
end-of-input (`exit(0)`), and a parse that hits the out-of-bounds
indexing aborts the process (Rust panic).  A line containing a NUL byte
is rejected before parsing and not recorded.  Otherwise the line is
stripped, parsed, on success executed (its trace is returned; a
background pipeline is recorded as a job with `jobText`, a foreground
one is waited on), and the stripped line is appended to history whether
or not parsing succeeded. -/
def stepLine (st : RushSt) (raw : Str) : Option (RushSt × List (Proc × Ev)) :=
  if raw = [] then none
  else if Char.ofNat 0 ∈ raw then some (st, [])
  else
    match CmdLine.new (stripNl raw) with
    | PRes.oob => none
    | PRes.perr _ => some ({ st with history := st.history ++ [stripNl raw] }, [])
    | PRes.ok cl =>
      if cl.back then
        some ({ st with
                history := st.history ++ [stripNl raw],
                jobs := st.jobs ++ [(cl.exec.2, jobText (stripNl raw))] }, cl.exec.1)
      else
        some ({ st with history := st.history ++ [stripNl raw] }, cl.exec.1)

/-- Folding `stepLine` over a list of input lines, stopping when the
session terminates. -/
def runLines (st : RushSt) : List Str → Option RushSt
  | [] => some st
  | l :: rest =>
    match stepLine st l with
    | none => none
    | some (st', _) => runLines st' rest

/-- Stage whose child duplicates (and therefore needs) the given pipe
descriptor: the write end of pipe `i` is duplicated onto stdout by
stage `i`'s child, the read end onto stdin by stage `i+1`'s child.
(The connection with the actual trace is proved, not assumed: see the
dup-user conjuncts of the pipe-discipline theorem.) -/
def needsStage (i : Nat) (w : Bool) : Nat := if w then i else i + 1

/-- Audit state for the parent's descriptor discipline: stages forked
so far, descriptors closed so far, and a flag that turns false if a
close ever happens before the fork that needs the descriptor or a
descriptor is closed twice. -/
structure TSt where
  forked : List Nat
  closed : List (Nat × Bool)
  ok : Bool
deriving DecidableEq

def stepC (st : TSt) : Ev → TSt
  | Ev.forkStage s => ⟨s :: st.forked, st.closed, st.ok⟩
  | Ev.closeFd i w =>
    ⟨st.forked, (i, w) :: st.closed,
      st.ok && decide (needsStage i w ∈ st.forked) && !decide ((i, w) ∈ st.closed)⟩
  | _ => st

def runC (l : List Ev) : TSt := l.foldl stepC ⟨[], [], true⟩

/-- Full descriptor discipline over a parent event trace for `np`
pipes: no close precedes the fork needing that descriptor, no
descriptor is closed twice, and at the end of the trace both ends of
every pipe have been closed (hence each exactly once, and none is left
open). -/
def pipeDiscipline (l : List Ev) (np : Nat) : Bool :=
  (runC l).ok &&
    (List.range np).all
      (fun i => decide ((i, true) ∈ (runC l).closed) && decide ((i, false) ∈ (runC l).closed))

/-- Events performed by the parent process, in order. -/
def parentEvs (tr : List (Proc × Ev)) : List Ev :=
  (tr.filter (fun pe => pe.1 = Proc.parent)).map Prod.snd

/-- Invariant of the audit state after the first `k` middle-stage
iterations of the multi-stage branch (on top of stage 0's fork and the
close of pipe 0's write end). -/
def MidInv (k : Nat) (st : TSt) : Prop :=
  st.ok = true
    ∧ (∀ s : Nat, s ∈ st.forked ↔ s ≤ k)
    ∧ (∀ d : Nat × Bool, d ∈ st.closed ↔ (d.2 = true ∧ d.1 ≤ k) ∨ (d.2 = false ∧ d.1 + 1 ≤ k))

/-- Parent-side events of one middle-stage iteration of the multi-stage
branch of `CmdLine::exec`: fork stage `i`, close `fd[i-1][0]`, close
`fd[i][1]`. -/
def midBody (i : Nat) : List Ev :=
  [Ev.forkStage i, Ev.closeFd (i - 1) false, Ev.closeFd i true]

/-- Token following the last occurrence of `op` in a token list, if
any (specification-side description for the overwrite semantics of
repeated `<`/`>`). -/
def lastFollower (op : Str) : List Str → Option Str
  | [] => none
  | t :: rest =>
    match lastFollower op rest with
    | some f => some f
    | none => if t = op then rest.head? else none

/-- Fixed arity table of the builtins, as stated by the specification:
cd 1, exit 0, history 0, jobs 0, kill 1, pwd 0. -/
def builtinArity (p : Str) : Option Nat :=
  if p = "cd".toList then some 1
  else if p = "exit".toList then some 0
  else if p = "history".toList then some 0
  else if p = "jobs".toList then some 0
  else if p = "kill".toList then some 1
  else if p = "pwd".toList then some 0
  else none

/- ------------------------------------------------------------------ -/
/- Helper lemmas                                                      -/
/- ------------------------------------------------------------------ -/

theorem splitWsAux_all_ws (l : Str) (h : ∀ c ∈ l, c.isWhitespace) :
    splitWsAux l [] = [] := by
  induction l with
  | nil => rfl
  | cons c cs ih =>
    have hc : c.isWhitespace := h c (List.mem_cons_self c cs)
    simp only [splitWsAux, hc, if_true, if_pos rfl]
    exact ih (fun x hx => h x (List.mem_cons_of_mem _ hx))

/- ------------------------------------------------------------------ -/
/- Claim theorems                                                     -/
/- ------------------------------------------------------------------ -/

/-- C5: a line containing only whitespace parses to `Some` pipeline
with zero stages, and executing any zero-stage pipeline performs no
fork, no pipe creation and no builtin action, returning an empty list
of process identifiers (its event trace and pid list are both empty). -/
theorem claim_C5_blank_line_noop :
    (∀ line : Str, (∀ c ∈ line, c.isWhitespace) →
      CmdLine.new line = PRes.ok ⟨[], false, none, none⟩)
    ∧ (∀ cl : CmdLine, cl.cmds = [] → cl.exec = ([], [])) := by
  constructor
  · intro line h
    unfold CmdLine.new
    have hz : splitWs line = [] := splitWsAux_all_ws line h
    rw [hz]
    rfl
  · intro cl h
    simp [CmdLine.exec, h]

/-- Witness for C5 at the concrete all-whitespace line `" \t "` and the
zero-stage pipeline produced for `"< f |"`-style lines. -/
theorem claim_C5_witness :
    CmdLine.new (" \t ".toList) = PRes.ok ⟨[], false, none, none⟩
    ∧ CmdLine.exec ⟨[], false, some ("f".toList), none⟩ = ([], []) :=
  ⟨claim_C5_blank_line_noop.1 (" \t ".toList) (by decide),
   claim_C5_blank_line_noop.2 ⟨[], false, some ("f".toList), none⟩ rfl⟩

/-- C2: the parser is NOT total.  On the line `"< f | b"` the first
stage's only token is consumed as the `<` filename, so no `Cmd` is ever
pushed for stage 0; the later `|` still increments `cmdno`, and the
token `b` then indexes `cmds[1]` while `cmds` has length 1 — an index
out of bounds (a Rust panic), modelled as `PRes.oob`. -/
theorem claim_C2_parser_oob_panic :
    CmdLine.new ("< f | b".toList) = PRes.oob := by decide

/-- C3 counterexample: parsing `"< in"` does NOT return `None` — it
succeeds with a zero-stage pipeline whose input file is `in` (the
`cmdno > 0` guard only rejects `<` after a `|` has been seen). -/
theorem claim_C3_counterexample :
    (CmdLine.new ("< in".toList)).isPerr = false
    ∧ CmdLine.new ("< in".toList) = PRes.ok ⟨[], false, some ("in".toList), none⟩ := by
  decide

/-- C3 amended: parsing `"< in"` yields `Some` zero-stage pipeline with
input file `in` (accepted; executing it is a no-op), while parsing
`"a | < in"` (input redirection after a `|`) is rejected with the
diagnostic `< can appear only in the first command`. -/
theorem claim_C3_amended :
    CmdLine.new ("< in".toList) = PRes.ok ⟨[], false, some ("in".toList), none⟩
    ∧ CmdLine.new ("a | < in".toList)
        = PRes.perr "Parsing Error: < can appear only in the first command" := by
  decide

/-- C9: a single-stage pipeline whose sole command is a builtin ignores
any attached redirections: the full execution trace is exactly the
builtin running in the parent (no fork, no pipe, no `open` of the
input or output file — so the output target is neither created nor
truncated), and the returned pid list is empty. -/
theorem claim_C9_builtin_ignores_redirect (cl : CmdLine) (c : Cmd)
    (h1 : cl.cmds = [c]) (h2 : c.is_builtin = true) :
    cl.exec = ([(Proc.parent, Ev.runCmd 0)], []) := by
  simp [CmdLine.exec, h1, h2]

/-- Witness for C9: `pwd` with both an input and an output redirection
attached. -/
theorem claim_C9_witness :
    CmdLine.exec ⟨[⟨["pwd".toList]⟩], false, some ("in".toList), some ("out".toList)⟩
      = ([(Proc.parent, Ev.runCmd 0)], []) :=
  claim_C9_builtin_ignores_redirect _ ⟨["pwd".toList]⟩ rfl (by decide)

/-- Mismatched argument count makes `prog_num` report and answer
`false`. -/
theorem prog_num_mismatch (c : Cmd) (num : Nat) (hm : c.cmd.length - 1 ≠ num) :
    c.prog_num num = (false, [BEff.errLine (arityMsg c.prog num (c.cmd.length - 1))]) := by
  unfold Cmd.prog_num
  rw [if_pos hm]

/-- C8: every builtin invoked with an argument count different from its
fixed arity (cd 1, exit 0, history 0, jobs 0, kill 1, pwd 0) produces
exactly the diagnostic `<name>: Expect <n> arguments, found <m>` and
performs no action — in particular no `exitNow`, no `chdirTo`, no
signal, no output: the effect list is exactly the one error line,
whatever the session state and probe oracle. -/
theorem claim_C8_builtin_arity (c : Cmd) (probe : Nat → Int) (history : List Str)
    (jobs : List (List Nat × Str)) (n : Nat)
    (ha : builtinArity c.prog = some n) (hm : c.cmd.length - 1 ≠ n) :
    Cmd.exec c probe history jobs = [BEff.errLine (arityMsg c.prog n (c.cmd.length - 1))] := by
  unfold builtinArity at ha
  split_ifs at ha with h1 h2 h3 h4 h5 h6
  · injection ha with hn; subst hn
    have b1 : (c.prog == "cd".toList) = true := by rw [h1]; decide
    simp only [Cmd.exec, b1, if_true, prog_num_mismatch c 1 hm]
  · injection ha with hn; subst hn
    have b1 : (c.prog == "cd".toList) = false := by rw [h2]; decide
    have b2 : (c.prog == "history".toList) = false := by rw [h2]; decide
    have b3 : (c.prog == "jobs".toList) = false := by rw [h2]; decide
    have b4 : (c.prog == "exit".toList) = true := by rw [h2]; decide
    simp only [Cmd.exec, b1, b2, b3, b4, Bool.false_eq_true, if_false, if_true,
      prog_num_mismatch c 0 hm]
  · injection ha with hn; subst hn
    have b1 : (c.prog == "cd".toList) = false := by rw [h3]; decide
    have b2 : (c.prog == "history".toList) = true := by rw [h3]; decide
    simp only [Cmd.exec, b1, b2, Bool.false_eq_true, if_false, if_true,
      prog_num_mismatch c 0 hm]
  · injection ha with hn; subst hn
    have b1 : (c.prog == "cd".toList) = false := by rw [h4]; decide
    have b2 : (c.prog == "history".toList) = false := by rw [h4]; decide
    have b3 : (c.prog == "jobs".toList) = true := by rw [h4]; decide
    simp only [Cmd.exec, b1, b2, b3, Bool.false_eq_true, if_false, if_true,
      prog_num_mismatch c 0 hm]
  · injection ha with hn; subst hn
    have b1 : (c.prog == "cd".toList) = false := by rw [h5]; decide
    have b2 : (c.prog == "history".toList) = false := by rw [h5]; decide
    have b3 : (c.prog == "jobs".toList) = false := by rw [h5]; decide
    have b4 : (c.prog == "exit".toList) = false := by rw [h5]; decide
    have b5 : (c.prog == "kill".toList) = true := by rw [h5]; decide
    simp only [Cmd.exec, b1, b2, b3, b4, b5, Bool.false_eq_true, if_false, if_true,
      prog_num_mismatch c 1 hm]
  · injection ha with hn; subst hn
    have b1 : (c.prog == "cd".toList) = false := by rw [h6]; decide
    have b2 : (c.prog == "history".toList) = false := by rw [h6]; decide
    have b3 : (c.prog == "jobs".toList) = false := by rw [h6]; decide
    have b4 : (c.prog == "exit".toList) = false := by rw [h6]; decide
    have b5 : (c.prog == "kill".toList) = false := by rw [h6]; decide
    have b6 : (c.prog == "pwd".toList) = true := by rw [h6]; decide
    simp only [Cmd.exec, b1, b2, b3, b4, b5, b6, Bool.false_eq_true, if_false, if_true,
      prog_num_mismatch c 0 hm]

/-- Witness for C8: `exit 0` (one argument where zero are expected)
prints the arity diagnostic and does not terminate the process. -/
theorem claim_C8_witness :
    Cmd.exec ⟨["exit".toList, "0".toList]⟩ (fun _ => 0) [] []
      = [BEff.errLine "exit: Expect 0 arguments, found 1"] := by
  have h := claim_C8_builtin_arity ⟨["exit".toList, "0".toList]⟩ (fun _ => 0) [] [] 0
    (by decide) (by decide)
  rw [h]
  decide

/-- C6: whenever the parsing loop reaches a `>` token that is followed
by a valid (non-operator) filename and any `|` occurs anywhere in the
remaining tokens, parsing fails with the diagnostic
`> can appear only in the last command` — a forward scan over all
remaining tokens, from any loop state; and concretely the whole line
`"a > out | b"` is rejected with that diagnostic. -/
theorem claim_C6_out_redirect_forward_scan :
    (∀ (tokens rest : List Str) (i : Nat) (st : PSt) (nxt : Str),
        tokens.drop i = ['>'] :: rest →
        rest.head? = some nxt →
        substrOf nxt opStr = false →
        ['|'] ∈ rest →
        parseLoop tokens (['>'] :: rest) i st
          = PRes.perr "Parsing Error: > can appear only in the last command")
    ∧ CmdLine.new ("a > out | b".toList)
        = PRes.perr "Parsing Error: > can appear only in the last command" := by
  constructor
  · intro tokens rest i st nxt hdrop hnxt hsub hpipe
    have hget : tokens[i]? = some ['>'] := by
      rw [← List.head?_drop, hdrop]; rfl
    have hrest : tokens.drop (i + 1) = rest := by
      rw [← List.drop_drop, hdrop]; rfl
    have hget1 : tokens[i + 1]? = some nxt := by
      rw [← List.head?_drop, hrest]; exact hnxt
    have hlen : i ≠ tokens.length - 1 := by
      have h1 : (tokens.drop i).length = tokens.length - i := List.length_drop i tokens
      rw [hdrop] at h1
      have h2 : rest ≠ [] := by
        intro he; rw [he] at hnxt; exact Option.noConfusion hnxt
      have h3 : 1 ≤ rest.length := by
        cases rest with
        | nil => exact absurd rfl h2
        | cons a as => simp
      simp only [List.length_cons] at h1
      omega
    simp only [parseLoop, hget]
    rw [if_neg (by decide : ¬ (['>'] : Str) = ['&']),
        if_neg (by decide : ¬ (['>'] : Str) = ['|']),
        if_neg (by decide : ¬ (['>'] : Str) = ['<'])]
    rw [if_pos trivial, if_neg hlen]
    simp only [hget1, hsub, Bool.false_eq_true, if_false, hrest]
    rw [if_pos hpipe]
  · decide

/-- Witness for C6: the general statement applied at the concrete line
`"a > out | b"`, position 1, with the loop state reached after `a`. -/
theorem claim_C6_witness :
    parseLoop (splitWs ("a > out | b".toList))
        ((['>'] : Str) :: ["out".toList, ['|'], "b".toList]) 1
        ⟨false, [⟨[['a']]⟩], false, none, none, 0⟩
      = PRes.perr "Parsing Error: > can appear only in the last command" :=
  claim_C6_out_redirect_forward_scan.1 (splitWs ("a > out | b".toList))
    ["out".toList, ['|'], "b".toList] 1 ⟨false, [⟨[['a']]⟩], false, none, none, 0⟩
    ("out".toList) (by decide) (by decide) (by decide) (by decide)

/-- C7: history grows by exactly one entry per non-NUL input line,
in input order, each entry being the original newline-stripped line,
whether the line parsed successfully or failed with a diagnostic (the
two outcomes the claim enumerates; the out-of-bounds abort of C2 is the
one outcome outside them, excluded by hypothesis); and a parse failure
executes nothing — its step produces an empty event trace and changes
nothing but history. -/
theorem claim_C7_history_append :
    (∀ (st : RushSt) (lines : List Str),
        (∀ l ∈ lines, l ≠ [] ∧ Char.ofNat 0 ∉ l ∧ CmdLine.new (stripNl l) ≠ PRes.oob) →
        ∃ jb, runLines st lines = some ⟨st.history ++ lines.map stripNl, jb⟩)
    ∧ (∀ (st : RushSt) (l : Str) (msg : String),
        l ≠ [] → Char.ofNat 0 ∉ l → CmdLine.new (stripNl l) = PRes.perr msg →
        stepLine st l = some ({ st with history := st.history ++ [stripNl l] }, [])) := by
  have hstep : ∀ (st : RushSt) (l : Str),
      l ≠ [] → Char.ofNat 0 ∉ l → CmdLine.new (stripNl l) ≠ PRes.oob →
      ∃ jb tr, stepLine st l = some (⟨st.history ++ [stripNl l], jb⟩, tr) := by
    intro st l h0 h1 h2
    unfold stepLine
    rw [if_neg h0, if_neg h1]
    cases hp : CmdLine.new (stripNl l) with
    | oob => exact absurd hp h2
    | perr msg => exact ⟨st.jobs, [], rfl⟩
    | ok cl =>
      dsimp only
      cases hb : cl.back with
      | false => exact ⟨st.jobs, cl.exec.1, rfl⟩
      | true =>
        exact ⟨st.jobs ++ [(cl.exec.2, jobText (stripNl l))], cl.exec.1, rfl⟩
  constructor
  · intro st lines
    induction lines generalizing st with
    | nil =>
      intro _
      exact ⟨st.jobs, by simp [runLines]⟩
    | cons l rest ih =>
      intro h
      have hl := h l (List.mem_cons_self l rest)
      obtain ⟨jb, tr, hs⟩ := hstep st l hl.1 hl.2.1 hl.2.2
      obtain ⟨jb', hr⟩ :=
        ih ⟨st.history ++ [stripNl l], jb⟩ (fun x hx => h x (List.mem_cons_of_mem _ hx))
      refine ⟨jb', ?_⟩
      simp only [runLines, hs, hr, List.map_cons]
      simp [List.append_assoc]
  · intro st l msg h0 h1 hp
    unfold stepLine
    rw [if_neg h0, if_neg h1, hp]

/-- Witness for C7: two concrete lines, one accepted (`ls`) and one
rejected with a diagnostic (`| x`); history gains both stripped lines
in order. -/
theorem claim_C7_witness :
    ∃ jb, runLines ⟨[], []⟩ ["ls\n".toList, "| x\n".toList]
      = some ⟨([] : List Str) ++ ["ls\n".toList, "| x\n".toList].map stripNl, jb⟩ :=
  claim_C7_history_append.1 ⟨[], []⟩ ["ls\n".toList, "| x\n".toList] (by decide)

/-- Filtering out non-whitespace characters commutes with whitespace
tokenization: removing characters (none of which are whitespace) from
the raw line equals removing them from each token and dropping tokens
that become empty. -/
theorem splitWsAux_filter (p : Char → Bool) (hp : ∀ c, c.isWhitespace = true → p c = true) :
    ∀ (l cur : Str),
      splitWsAux (l.filter p) (cur.filter p)
        = ((splitWsAux l cur).map (fun t => t.filter p)).filter (fun t => t ≠ []) := by
  intro l
  induction l with
  | nil =>
    intro cur
    by_cases hcur : cur = []
    · subst hcur; simp [splitWsAux]
    · by_cases hf : cur.filter p = []
      · simp [splitWsAux, hcur, hf, List.filter_reverse]
      · simp [splitWsAux, hcur, hf, List.filter_reverse]
  | cons c cs ih =>
    intro cur
    by_cases hws : c.isWhitespace
    · have hpc : p c = true := hp c hws
      have h0 : splitWsAux (cs.filter p) [] =
          ((splitWsAux cs []).map (fun t => t.filter p)).filter (fun t => t ≠ []) := by
        have := ih []
        simpa using this
      by_cases hcur : cur = []
      · subst hcur
        simp [List.filter_cons_of_pos, hpc, splitWsAux, hws, h0]
      · by_cases hf : cur.filter p = []
        · rw [List.filter_cons_of_pos hpc]
          rw [splitWsAux, if_pos hws, if_pos hf]
          rw [splitWsAux, if_pos hws, if_neg hcur]
          rw [h0]
          simp [List.filter_reverse, hf]
        · rw [List.filter_cons_of_pos hpc]
          rw [splitWsAux, if_pos hws, if_neg hf]
          rw [splitWsAux, if_pos hws, if_neg hcur]
          rw [h0]
          have hrev : cur.reverse.filter p ≠ [] := by
            rw [List.filter_reverse]
            simp [hf]
          simp [List.filter_reverse, hrev, hf]
    · by_cases hpc : p c = true
      · rw [List.filter_cons_of_pos hpc]
        rw [splitWsAux, if_neg hws]
        rw [splitWsAux, if_neg hws]
        have := ih (c :: cur)
        rw [List.filter_cons_of_pos hpc] at this
        exact this
      · have hpc' : p c = false := by
          cases h : p c
          · rfl
          · exact absurd h hpc
        rw [List.filter_cons_of_neg hpc]
        rw [splitWsAux, if_neg hws]
        have := ih (c :: cur)
        rw [List.filter_cons_of_neg hpc] at this
        exact this

/-- Job text recorded by `Rush::run`, characterized token-wise: the
line's whitespace tokens, each with every `&` character deleted,
dropping tokens that thereby become empty, joined by single spaces. -/
theorem jobText_tokens (line : Str) :
    jobText line
      = List.intercalate [' ']
          (((splitWs line).map (fun t => t.filter (fun c => c ≠ '&'))).filter
            (fun t => t ≠ [])) := by
  have hp : ∀ c : Char, c.isWhitespace = true → (fun c : Char => decide (c ≠ '&')) c = true := by
    intro c h
    by_cases he : c = '&'
    · rw [he] at h; exact absurd h (by decide)
    · simp [he]
  have h := splitWsAux_filter (fun c : Char => decide (c ≠ '&')) hp line []
  unfold jobText splitWs
  exact congrArg (List.intercalate [' ']) (by simpa using h)

/-- C4 counterexample: for the backgrounded line `"echo a&b &"`, the
recorded job text is `"echo ab"` — the ampersand INSIDE the argument
token `a&b` is deleted by `line.replace("&", "")`, so it is not
preserved as the claim states. -/
theorem claim_C4_counterexample :
    stepLine ⟨[], []⟩ ("echo a&b &\n".toList)
      = some (⟨["echo a&b &".toList], [([0], "echo ab".toList)]⟩,
          [(Proc.parent, Ev.forkStage 0), (Proc.child 0, Ev.runCmd 0),
           (Proc.child 0, Ev.exitP 0)])
    ∧ ("echo ab".toList : Str) ≠ "echo a&b".toList := by
  decide

/-- C4 amended: for every line whose parsed pipeline has the background
flag set, the text recorded in the new Job entry equals the line's
whitespace tokens, each with EVERY ampersand character deleted
(tokens that thereby become empty — such as the background marker —
are dropped), joined by single spaces; ampersands inside ordinary
argument tokens are therefore NOT preserved. -/
theorem claim_C4_amended (st : RushSt) (raw : Str) (cl : CmdLine)
    (h0 : raw ≠ []) (h1 : Char.ofNat 0 ∉ raw)
    (hp : CmdLine.new (stripNl raw) = PRes.ok cl) (hb : cl.back = true) :
    stepLine st raw
      = some ({ st with
          history := st.history ++ [stripNl raw],
          jobs := st.jobs ++ [(cl.exec.2,
            List.intercalate [' ']
              (((splitWs (stripNl raw)).map (fun t => t.filter (fun c => c ≠ '&'))).filter
                (fun t => t ≠ [])))] }, cl.exec.1) := by
  unfold stepLine
  rw [if_neg h0, if_neg h1, hp]
  dsimp only
  rw [if_pos hb, jobText_tokens]

/-- Witness for C4 at the backgrounded line `"echo a&b &"`. -/
theorem claim_C4_witness :
    stepLine ⟨["prev".toList], []⟩ ("echo a&b &\n".toList)
      = some ({ history := ["prev".toList] ++ ["echo a&b &".toList],
                jobs := [] ++ [((CmdLine.exec ⟨[⟨["echo".toList, "a&b".toList]⟩], true, none, none⟩).2,
                  List.intercalate [' ']
                    (((splitWs (stripNl ("echo a&b &\n".toList))).map
                        (fun t => t.filter (fun c => c ≠ '&'))).filter
                      (fun t => t ≠ [])))] },
             (CmdLine.exec ⟨[⟨["echo".toList, "a&b".toList]⟩], true, none, none⟩).1) :=
  claim_C4_amended ⟨["prev".toList], []⟩ ("echo a&b &\n".toList)
    ⟨[⟨["echo".toList, "a&b".toList]⟩], true, none, none⟩
    (by decide) (by decide) (by decide) rfl

/-- A token different from the operator passes through
`lastFollower`. -/
theorem lf_cons_ne (op t : Str) (rest : List Str) (h : t ≠ op) :
    lastFollower op (t :: rest) = lastFollower op rest := by
  cases hm : lastFollower op rest <;> simp [lastFollower, h, hm]

/-- The operator itself at the head: the last follower is the one of
the tail when it exists, otherwise the head of the tail. -/
theorem lf_cons_eq (op : Str) (rest : List Str) :
    lastFollower op (op :: rest)
      = match lastFollower op rest with
        | some f => some f
        | none => rest.head? := by
  cases hm : lastFollower op rest <;> simp [lastFollower, hm]

/-- Pushing a token into the current stage leaves the redirection
fields untouched. -/
theorem pushTok_fields (st : PSt) (t : Str) (st' : PSt) (h : pushTok st t = some st') :
    st'.filein = st.filein ∧ st'.fileout = st.fileout ∧ st'.cmdno = st.cmdno := by
  unfold pushTok at h
  cases hpa : pushAt (if st.top then st.cmds ++ [⟨[]⟩] else st.cmds) st.cmdno t with
  | none => rw [hpa] at h; exact Option.noConfusion h
  | some c2 =>
    rw [hpa] at h
    injection h with h'
    rw [← h']
    exact ⟨rfl, rfl, rfl⟩

/-- Redirection fields computed by the parsing loop: on success, the
final input/output file is the follower of the LAST `<`/`>` in the
remaining tokens, falling back to the loop state's current field when
no occurrence remains — each occurrence overwrites the previous one. -/
theorem parseLoop_lastFollower (tokens : List Str) :
    ∀ (rem : List Str) (i : Nat) (st : PSt) (cl : CmdLine),
      tokens.drop i = rem →
      parseLoop tokens rem i st = PRes.ok cl →
      cl.filein = (match lastFollower ['<'] rem with
                   | some f => some f
                   | none => st.filein)
        ∧ cl.fileout = (match lastFollower ['>'] rem with
                        | some f => some f
                        | none => st.fileout) := by
  intro rem
  induction rem with
  | nil =>
    intro i st cl _ hrun
    simp only [parseLoop] at hrun
    injection hrun with h
    rw [← h]
    exact ⟨rfl, rfl⟩
  | cons t rest ih =>
    intro i st cl hdrop hrun
    have hget : tokens[i]? = some t := by rw [← List.head?_drop, hdrop]; rfl
    have hrest : tokens.drop (i + 1) = rest := by rw [← List.drop_drop, hdrop]; rfl
    simp only [parseLoop, hget] at hrun
    split at hrun
    · rename_i ht
      subst ht
      split at hrun
      · exact absurd hrun (by simp)
      · obtain ⟨hin, hout⟩ := ih (i + 1) _ cl hrest hrun
        refine ⟨?_, ?_⟩
        · rw [hin, lf_cons_ne _ _ _ (by decide)]
        · rw [hout, lf_cons_ne _ _ _ (by decide)]
    · split at hrun
      · rename_i ht
        subst ht
        split at hrun
        · exact absurd hrun (by simp)
        · split at hrun
          · exact absurd hrun (by simp)
          · rename_i prev hprev
            split at hrun
            · exact absurd hrun (by simp)
            · obtain ⟨hin, hout⟩ := ih (i + 1) _ cl hrest hrun
              refine ⟨?_, ?_⟩
              · rw [hin, lf_cons_ne _ _ _ (by decide)]
              · rw [hout, lf_cons_ne _ _ _ (by decide)]
      · split at hrun
        · rename_i ht
          subst ht
          split at hrun
          · exact absurd hrun (by simp)
          · split at hrun
            · exact absurd hrun (by simp)
            · rename_i nxt hsc
              split at hrun
              · exact absurd hrun (by simp)
              · split at hrun
                · exact absurd hrun (by simp)
                · have hn : rest.head? = some nxt := by
                    rw [← hrest, List.head?_drop]; exact hsc
                  obtain ⟨hin, hout⟩ := ih (i + 1) _ cl hrest hrun
                  refine ⟨?_, ?_⟩
                  · rw [hin, lf_cons_eq]
                    all_goals cases hlf : lastFollower ['<'] rest <;> simp [hlf, hn]
                  · rw [hout, lf_cons_ne _ _ _ (by decide)]
        · split at hrun
          · rename_i ht
            subst ht
            split at hrun
            · exact absurd hrun (by simp)
            · split at hrun
              · exact absurd hrun (by simp)
              · rename_i nxt hsc
                split at hrun
                · exact absurd hrun (by simp)
                · split at hrun
                  · exact absurd hrun (by simp)
                  · have hn : rest.head? = some nxt := by
                      rw [← hrest, List.head?_drop]; exact hsc
                    obtain ⟨hin, hout⟩ := ih (i + 1) _ cl hrest hrun
                    refine ⟨?_, ?_⟩
                    · rw [hin, lf_cons_ne _ _ _ (by decide)]
                    · rw [hout, lf_cons_eq]
                      all_goals cases hlf : lastFollower ['>'] rest <;> simp [hlf, hn]
          · rename_i hne1 hne2 hne3 hne4
            split at hrun
            · split at hrun
              · exact absurd hrun (by simp)
              · rename_i st' hpt
                obtain ⟨hfi, hfo, _⟩ := pushTok_fields st t st' hpt
                obtain ⟨hin, hout⟩ := ih (i + 1) st' cl hrest hrun
                refine ⟨?_, ?_⟩
                · rw [hin, lf_cons_ne _ _ _ hne3]
                  all_goals cases hlf : lastFollower ['<'] rest <;> simp [hlf, hfi]
                · rw [hout, lf_cons_ne _ _ _ hne4]
                  all_goals cases hlf : lastFollower ['>'] rest <;> simp [hlf, hfo]
            · split at hrun
              · exact absurd hrun (by simp)
              · rename_i prev hprev
                split at hrun
                · obtain ⟨hin, hout⟩ := ih (i + 1) st cl hrest hrun
                  refine ⟨?_, ?_⟩
                  · rw [hin, lf_cons_ne _ _ _ hne3]
                  · rw [hout, lf_cons_ne _ _ _ hne4]
                · split at hrun
                  · exact absurd hrun (by simp)
                  · rename_i st' hpt
                    obtain ⟨hfi, hfo, _⟩ := pushTok_fields st t st' hpt
                    obtain ⟨hin, hout⟩ := ih (i + 1) st' cl hrest hrun
                    refine ⟨?_, ?_⟩
                    · rw [hin, lf_cons_ne _ _ _ hne3]
                      all_goals cases hlf : lastFollower ['<'] rest <;> simp [hlf, hfi]
                    · rw [hout, lf_cons_ne _ _ _ hne4]
                      all_goals cases hlf : lastFollower ['>'] rest <;> simp [hlf, hfo]

/-- C10: whenever a whole line parses successfully, the pipeline's
input file is the token following the LAST `<` in the line's tokens
(`none` when there is no `<`), and likewise the output file for `>`:
each occurrence overwrites the previous one. -/
theorem claim_C10_last_redirect_wins (line : Str) (cl : CmdLine)
    (h : CmdLine.new line = PRes.ok cl) :
    cl.filein = lastFollower ['<'] (splitWs line)
    ∧ cl.fileout = lastFollower ['>'] (splitWs line) := by
  obtain ⟨h1, h2⟩ :=
    parseLoop_lastFollower (splitWs line) (splitWs line) 0
      ⟨true, [], false, none, none, 0⟩ cl (by simp) h
  constructor
  · rw [h1]
    cases hlf : lastFollower ['<'] (splitWs line) <;> simp [hlf]
  · rw [h2]
    cases hlf : lastFollower ['>'] (splitWs line) <;> simp [hlf]

/-- Witness for C10 on `"a < f < g > o > p"`: the parsed pipeline's
input file is `g` and output file is `p`, the followers of the last
`<` and the last `>`. -/
theorem claim_C10_witness :
    (⟨[⟨[['a']]⟩], false, some ("g".toList), some ("p".toList)⟩ : CmdLine).filein
        = lastFollower ['<'] (splitWs ("a < f < g > o > p".toList))
    ∧ (⟨[⟨[['a']]⟩], false, some ("g".toList), some ("p".toList)⟩ : CmdLine).fileout
        = lastFollower ['>'] (splitWs ("a < f < g > o > p".toList)) :=
  claim_C10_last_redirect_wins ("a < f < g > o > p".toList)
    ⟨[⟨[['a']]⟩], false, some ("g".toList), some ("p".toList)⟩ (by decide)

theorem parentEvs_append (a b : List (Proc × Ev)) :
    parentEvs (a ++ b) = parentEvs a ++ parentEvs b := by
  simp [parentEvs, List.filter_append]

theorem parentEvs_childMap (l : List Ev) (s : Nat) :
    parentEvs (l.map (fun e => (Proc.child s, e))) = [] := by
  induction l with
  | nil => rfl
  | cons e es ih => simp [parentEvs, List.filter]

theorem parentEvs_parentMap (l : List Nat) (f : Nat → Ev) :
    parentEvs (l.map (fun x => (Proc.parent, f x))) = l.map f := by
  induction l with
  | nil => rfl
  | cons x xs ih => simpa [parentEvs, List.filter] using ih

theorem parentEvs_flatMapN (l : List Nat) (f : Nat → List (Proc × Ev)) :
    parentEvs (l.flatMap f) = l.flatMap (fun a => parentEvs (f a)) := by
  simp [parentEvs, List.filter_flatMap, List.map_flatMap]

theorem parentEvs_midBody (i : Nat) :
    parentEvs ([(Proc.parent, Ev.forkStage i)]
        ++ ([Ev.dupRead (i - 1), Ev.dupWrite i, Ev.runCmd i, Ev.exitP 0].map
            (fun e => (Proc.child i, e)))
        ++ [(Proc.parent, Ev.closeFd (i - 1) false), (Proc.parent, Ev.closeFd i true)])
      = midBody i := by
  simp [parentEvs_append, parentEvs_childMap, midBody, parentEvs]

theorem foldl_stepC_mkpipe (l : List Nat) (st : TSt) :
    (l.map Ev.mkpipe).foldl stepC st = st := by
  induction l generalizing st with
  | nil => rfl
  | cons x xs ih => simp only [List.map_cons, List.foldl_cons, stepC]; exact ih st

theorem midStep (k : Nat) (st : TSt) (h : MidInv k st) :
    MidInv (k + 1) ((midBody (k + 1)).foldl stepC st) := by
  obtain ⟨hok, hf, hc⟩ := h
  have m2 : (k, false) ∉ st.closed := by
    intro hm
    have h2 := (hc (k, false)).mp hm
    simp at h2
  have m4 : (k + 1, true) ∉ (k, false) :: st.closed := by
    intro hm
    rcases List.mem_cons.mp hm with h' | h'
    · simp at h'
    · have h2 := (hc (k + 1, true)).mp h'
      simp at h2
  refine ⟨?_, ?_, ?_⟩
  · simp [midBody, stepC, needsStage, hok, m2, m4]
  · intro s
    simp only [midBody, List.foldl_cons, List.foldl_nil, stepC]
    rw [List.mem_cons, hf s]
    omega
  · intro d
    obtain ⟨a, b⟩ := d
    simp only [midBody, List.foldl_cons, List.foldl_nil, stepC]
    rw [List.mem_cons, List.mem_cons, hc (a, b)]
    cases b <;> simp <;> omega

theorem midFold (m : Nat) (st : TSt) (h : MidInv 0 st) :
    MidInv m (((List.range' 1 m).flatMap midBody).foldl stepC st) := by
  induction m with
  | zero => simpa using h
  | succ n ih =>
    have hc1 := @List.range'_concat 1 1 n
    simp only [one_mul] at hc1
    rw [Nat.add_comm 1 n] at hc1
    rw [hc1, List.flatMap_append, List.foldl_append]
    have h2 := midStep n _ ih
    simpa using h2

theorem parentEvs_nil : parentEvs [] = [] := rfl

theorem parentEvs_cons_parent (e : Ev) (tr : List (Proc × Ev)) :
    parentEvs ((Proc.parent, e) :: tr) = e :: parentEvs tr := by
  simp [parentEvs]

/-- Canonical form of the parent's event sequence for a multi-stage
pipeline: create the pipes, fork stage 0 and close pipe 0's write end,
run the middle iterations, fork the last stage and close the last
pipe's read end. -/
theorem parentEvs_exec_multi (cl : CmdLine) (h2 : 2 ≤ cl.cmds.length) :
    parentEvs cl.exec.1
      = (List.range (cl.cmds.length - 1)).map Ev.mkpipe
        ++ [Ev.forkStage 0, Ev.closeFd 0 true]
        ++ (List.range' 1 (cl.cmds.length - 2)).flatMap midBody
        ++ [Ev.forkStage (cl.cmds.length - 1), Ev.closeFd (cl.cmds.length - 2) false] := by
  have hne : ¬ (cl.cmds.length = 1) := by omega
  have hpos : cl.cmds.length > 0 := by omega
  simp only [CmdLine.exec]
  rw [if_neg hne, if_pos hpos]
  simp only [parentEvs_append, parentEvs_childMap, parentEvs_parentMap, parentEvs_flatMapN,
    parentEvs_midBody, parentEvs_cons_parent, parentEvs_nil]
  simp [List.append_assoc]
  have hfn : (fun a => [Ev.forkStage a, Ev.closeFd (a - 1) false, Ev.closeFd a true]) = midBody := by
    funext a
    simp [midBody]
  rw [hfn]

theorem midInv_zero : MidInv 0 (⟨[0], [(0, true)], true⟩ : TSt) := by
  refine ⟨rfl, ?_, ?_⟩
  · intro s
    simp
  · intro d
    obtain ⟨a, b⟩ := d
    simp [Prod.ext_iff]
    cases b <;> simp

/-- Descriptor discipline of the parent in the multi-stage branch:
the audit of the parent event trace passes, i.e. every pipe descriptor
is closed only after the fork of the stage whose child duplicates it,
never twice, and by the end of `exec` both ends of every pipe have been
closed (so none remains open and each was closed exactly once). -/
theorem exec_parent_discipline (cl : CmdLine) (h2 : 2 ≤ cl.cmds.length) :
    pipeDiscipline (parentEvs cl.exec.1) (cl.cmds.length - 1) = true := by
  rw [parentEvs_exec_multi cl h2]
  obtain ⟨hok, hfk, hcl⟩ := midFold (cl.cmds.length - 2) ⟨[0], [(0, true)], true⟩ midInv_zero
  have hstart : List.foldl stepC (⟨[], [], true⟩ : TSt) [Ev.forkStage 0, Ev.closeFd 0 true]
      = ⟨[0], [(0, true)], true⟩ := by decide
  have hrc : runC ((List.range (cl.cmds.length - 1)).map Ev.mkpipe
        ++ [Ev.forkStage 0, Ev.closeFd 0 true]
        ++ (List.range' 1 (cl.cmds.length - 2)).flatMap midBody
        ++ [Ev.forkStage (cl.cmds.length - 1), Ev.closeFd (cl.cmds.length - 2) false])
      = stepC (stepC (((List.range' 1 (cl.cmds.length - 2)).flatMap midBody).foldl stepC
            ⟨[0], [(0, true)], true⟩)
          (Ev.forkStage (cl.cmds.length - 1)))
        (Ev.closeFd (cl.cmds.length - 2) false) := by
    unfold runC
    rw [List.foldl_append, List.foldl_append, List.foldl_append,
      foldl_stepC_mkpipe, hstart]
    rfl
  have harith : cl.cmds.length - 2 + 1 = cl.cmds.length - 1 := by omega
  have hA : needsStage (cl.cmds.length - 2) false
      ∈ (cl.cmds.length - 1)
        :: (((List.range' 1 (cl.cmds.length - 2)).flatMap midBody).foldl stepC
            ⟨[0], [(0, true)], true⟩).forked := by
    simp only [needsStage, if_neg Bool.false_ne_true]
    rw [harith]
    exact List.mem_cons_self _ _
  have hB : (cl.cmds.length - 2, false)
      ∉ (((List.range' 1 (cl.cmds.length - 2)).flatMap midBody).foldl stepC
          ⟨[0], [(0, true)], true⟩).closed := by
    intro hm
    have h3 := (hcl (cl.cmds.length - 2, false)).mp hm
    simp at h3
  unfold pipeDiscipline
  rw [hrc]
  simp only [stepC]
  rw [Bool.and_eq_true]
  constructor
  · simp [hok, hA, hB]
  · rw [List.all_eq_true]
    intro i hi
    rw [List.mem_range] at hi
    rw [Bool.and_eq_true, decide_eq_true_eq, decide_eq_true_eq]
    constructor
    · exact List.mem_cons_of_mem _
        ((hcl (i, true)).mpr (Or.inl ⟨rfl, by omega⟩))
    · by_cases hieq : i = cl.cmds.length - 2
      · rw [hieq]
        exact List.mem_cons_self _ _
      · exact List.mem_cons_of_mem _
          ((hcl (i, false)).mpr (Or.inr ⟨rfl, by omega⟩))

/-- In the multi-stage trace, the only child that duplicates pipe `i`'s
write end onto stdout is stage `i`'s child. -/
theorem exec_dupWrite_stage (cl : CmdLine) (h2 : 2 ≤ cl.cmds.length) :
    ∀ s i, (Proc.child s, Ev.dupWrite i) ∈ cl.exec.1 → s = needsStage i true := by
  intro s i hmem
  have hne : ¬ (cl.cmds.length = 1) := by omega
  have hpos : cl.cmds.length > 0 := by omega
  simp only [CmdLine.exec] at hmem
  rw [if_neg hne, if_pos hpos] at hmem
  cases hfi : cl.filein <;> cases hfo : cl.fileout <;>
      simp [CmdLine.dupinEvs, CmdLine.dupoutEvs, hfi, hfo, midBody,
        List.mem_append, List.mem_map, List.mem_flatMap, Prod.ext_iff] at hmem <;>
    simp [needsStage] <;> omega

/-- In the multi-stage trace, the only child that duplicates pipe `i`'s
read end onto stdin is stage `i+1`'s child. -/
theorem exec_dupRead_stage (cl : CmdLine) (h2 : 2 ≤ cl.cmds.length) :
    ∀ s i, (Proc.child s, Ev.dupRead i) ∈ cl.exec.1 → s = needsStage i false := by
  intro s i hmem
  have hne : ¬ (cl.cmds.length = 1) := by omega
  have hpos : cl.cmds.length > 0 := by omega
  simp only [CmdLine.exec] at hmem
  rw [if_neg hne, if_pos hpos] at hmem
  cases hfi : cl.filein <;> cases hfo : cl.fileout <;>
      simp [CmdLine.dupinEvs, CmdLine.dupoutEvs, hfi, hfo, midBody,
        List.mem_append, List.mem_map, List.mem_flatMap, Prod.ext_iff] at hmem <;>
    (rcases hmem with ⟨a, ⟨ha1, _⟩, hs, hi⟩ | ⟨hs, hi⟩ <;> simp [needsStage] <;> omega)

/-- C1: for every pipeline with at least two stages, the parent's
execution trace satisfies full pipe-descriptor discipline: every close
of a pipe descriptor happens after the fork of the stage whose child
duplicates that descriptor (write end of pipe `i`: stage `i`; read end
of pipe `i`: stage `i+1` — the second and third conjuncts prove from
the trace itself that these are the right stages), no descriptor is
closed twice, and at the end of `exec` both ends of all `N-1` pipes
have been closed — so each descriptor is closed exactly once and none
is left open after the last stage is forked. -/
theorem claim_C1_pipe_fd_discipline (cl : CmdLine) (h2 : 2 ≤ cl.cmds.length) :
    pipeDiscipline (parentEvs cl.exec.1) (cl.cmds.length - 1) = true
    ∧ (∀ s i, (Proc.child s, Ev.dupWrite i) ∈ cl.exec.1 → s = needsStage i true)
    ∧ (∀ s i, (Proc.child s, Ev.dupRead i) ∈ cl.exec.1 → s = needsStage i false) :=
  ⟨exec_parent_discipline cl h2, exec_dupWrite_stage cl h2, exec_dupRead_stage cl h2⟩

/-- Witness for C1 on the three-stage pipeline `a | b | c`. -/
theorem claim_C1_witness :
    pipeDiscipline
      (parentEvs (CmdLine.exec ⟨[⟨[['a']]⟩, ⟨[['b']]⟩, ⟨[['c']]⟩], false, none, none⟩).1) 2
      = true :=
  (claim_C1_pipe_fd_discipline ⟨[⟨[['a']]⟩, ⟨[['b']]⟩, ⟨[['c']]⟩], false, none, none⟩
    (by decide)).1
